import Mathlib

/-!
Verification of the crossword CSP solver in `src/generate.py` (class
`CrosswordCreator`).  The functions `enforce_node_consistency`, `revise`,
`ac3`, `assignment_complete`, `consistent`, `order_domain_values`,
`select_unassigned_variable`, `backtrack` and `solve` are shallowly embedded
below, translated directly from the Python source.  The surrounding data
model (`crossword.py`: the `Variable` class, the word list, the overlap and
neighbor relations) is not part of the provided sources, so it is modelled
from the specification (spec §3, §6).

Conventions of the embedding:
- Python strings become `List Char`; `word[i]` becomes `List.get?` (the
  source assumes well-formed indices, spec §7).
- Python sets/dicts over words and variables become `List`s; the mutable
  domain store becomes an explicit `Domains := Variable → List Word` value
  threaded through each operation.
- The `while` loop of `ac3` becomes fuel-indexed recursion
  (`ac3Fuel`); `fuelBound` computes a fuel value proved sufficient
  (`ac3Fuel_isSome_of_le_fuel`), which is the termination argument of the
  loop.  The recursion of `backtrack` is likewise fuel-indexed, with fuel
  `variables.length + 1` at the top level, enough because every recursive
  call assigns one more previously-unassigned variable.
-/

namespace CrosswordGen

/-- Modelled from the spec: the direction of a slot (spec §3, "a direction
(ACROSS or DOWN)"); `crossword.py` is not among the provided sources. -/
inductive Direction where
  | across
  | down
deriving DecidableEq

/-- Modelled from the spec: a slot of the grid (spec §3, "start coordinates
(row, column), a direction ..., and a length"; equality iff all four
attributes match); `crossword.py` is not among the provided sources. -/
structure Variable where
  i : Nat
  j : Nat
  direction : Direction
  length : Nat
deriving DecidableEq

/-- A word of the word list: a Python string, modelled as its character
list. -/
abbrev Word := List Char

/-- Modelled from the spec: the puzzle description consumed by the core
(spec §6): a finite set of variables, the word list, and the overlap
function on ordered pairs of variables (`None`/absent when the two slots do
not intersect); `crossword.py` is not among the provided sources. -/
structure Crossword where
  vars : List Variable
  words : List Word
  overlaps : Variable → Variable → Option (Nat × Nat)

/-- Modelled from the spec: the neighbor relation, "derived from the overlap
relation — the set of variables intersecting a given variable" (spec §3);
`crossword.py` is not among the provided sources. -/
def neighbors (cw : Crossword) (x : Variable) : List Variable :=
  cw.vars.filter (fun y => decide (y ≠ x) && (cw.overlaps x y).isSome)

/-- The domain store: each variable's current list of candidate words
(`self.domains` in `CrosswordCreator`). -/
abbrev Domains := Variable → List Word

/-- `CrosswordCreator.__init__`: every variable's domain starts as the full
word list. -/
def initDomains (cw : Crossword) : Domains := fun _ => cw.words

/-- `CrosswordCreator.enforce_node_consistency`: drop from each domain the
words whose length differs from the variable's length. -/
def enforce_node_consistency (d : Domains) : Domains :=
  fun v => (d v).filter (fun w => decide (w.length = v.length))

/-- The support test inside `revise`:
`any(word[i] == other[j] for other in self.domains[y])`. -/
def hasSupport (d : Domains) (y : Variable) (i j : Nat) (w : Word) : Bool :=
  (d y).any (fun w2 => decide (w.get? i = w2.get? j))

/-- The `to_remove` set computed by `revise` for overlap `(i, j)`: the words
of `x`'s domain with no support in `y`'s domain. -/
def toRemoveList (d : Domains) (x y : Variable) (i j : Nat) : List Word :=
  (d x).filter (fun w => ! hasSupport d y i j w)

/-- `CrosswordCreator.revise`: make `x` arc-consistent with `y`, returning
the revised-flag and the updated domain store. -/
def revise (cw : Crossword) (x y : Variable) (d : Domains) : Bool × Domains :=
  match cw.overlaps x y with
  | none => (false, d)
  | some (i, j) =>
    if (toRemoveList d x y i j).isEmpty then (false, d)
    else (true, fun v =>
      if v = x then (d x).filter (fun w => decide (w ∉ toRemoveList d x y i j)) else d v)

/-- An ordered arc of the AC-3 worklist. -/
abbrev Arc := Variable × Variable

/-- The default worklist of `ac3` when `arcs is None`:
`[(x, y) for x in self.domains for y in self.crossword.neighbors(x)]`. -/
def defaultArcs (cw : Crossword) : List Arc :=
  cw.vars.flatMap (fun x => (neighbors cw x).map (fun y => (x, y)))

/-- The `while queue:` loop of `CrosswordCreator.ac3`, as fuel-indexed
recursion; `none` means the fuel ran out (shown unreachable for sufficient
fuel in `ac3Fuel_isSome_of_le_fuel`).  Pops the front arc, revises, fails
with `some (false, _)` if the revised domain emptied, otherwise re-enqueues
`(z, x)` for every neighbor `z` of `x` other than `y`. -/
def ac3Fuel (cw : Crossword) : Nat → List Arc → Domains → Option (Bool × Domains)
  | _, [], d => some (true, d)
  | 0, _ :: _, _ => none
  | fuel + 1, (x, y) :: rest, d =>
    match revise cw x y d with
    | (false, _) => ac3Fuel cw fuel rest d
    | (true, d2) =>
      if (d2 x).isEmpty then some (false, d2)
      else
        ac3Fuel cw fuel
          (rest ++ ((neighbors cw x).filter (fun z => decide (z ≠ y))).map (fun z => (z, x)))
          d2

/-- The total number of candidate words across all variables' domains. -/
def totalSize (cw : Crossword) (d : Domains) : Nat :=
  (cw.vars.map (fun v => (d v).length)).sum

/-- Fuel sufficient for `ac3Fuel`: each iteration either shortens the queue
with unchanged domains or strictly shrinks some domain while enqueuing at
most `variables.length` arcs. -/
def fuelBound (cw : Crossword) (q : List Arc) (d : Domains) : Nat :=
  q.length + cw.vars.length * totalSize cw d

/-- The initial worklist of `ac3` for a given `arcs` argument. -/
def ac3Queue (cw : Crossword) (arcs : Option (List Arc)) : List Arc :=
  match arcs with
  | none => defaultArcs cw
  | some l => l

/-- `CrosswordCreator.ac3`: run the worklist loop, returning the success
flag together with the final domain store.  The fallback `(false, d)` for
exhausted fuel is dead code whenever the queue's arcs start from puzzle
variables (`ac3Fuel_isSome_of_le_fuel`). -/
def ac3 (cw : Crossword) (arcs : Option (List Arc)) (d : Domains) : Bool × Domains :=
  match ac3Fuel cw (fuelBound cw (ac3Queue cw arcs) d) (ac3Queue cw arcs) d with
  | some r => r
  | none => (false, d)

/-- An assignment: the Python `dict` mapping variables to words, as an
association list in insertion order. -/
abbrev Assignment := List (Variable × Word)

/-- The keys of an assignment (`assignment.keys()`). -/
def keysA (a : Assignment) : List Variable := a.map Prod.fst

/-- Dictionary lookup (`assignment[v]` / `v in assignment`). -/
def lookupA (a : Assignment) (v : Variable) : Option Word :=
  match a with
  | [] => none
  | (u, w) :: rest => if u = v then some w else lookupA rest v

/-- Dictionary update `assignment[v] = w`: replace the binding if the key is
present, otherwise append it (Python dicts keep insertion order). -/
def insertA (a : Assignment) (v : Variable) (w : Word) : Assignment :=
  if decide (v ∈ keysA a) then a.map (fun p => if p.1 = v then (v, w) else p)
  else a ++ [(v, w)]

/-- `CrosswordCreator.assignment_complete`:
`set(assignment.keys()) == self.crossword.variables`. -/
def assignment_complete (cw : Crossword) (a : Assignment) : Bool :=
  (keysA a).all (fun v => decide (v ∈ cw.vars)) &&
  cw.vars.all (fun v => decide (v ∈ keysA a))

/-- The distinctness test of `consistent`:
`len(set(assignment.values())) < len(assignment)` signals a duplicate. -/
def distinctValues (a : Assignment) : Bool :=
  ! decide ((a.map Prod.snd).dedup.length < a.length)

/-- `CrosswordCreator.consistent`: all assigned words distinct, every word
of its variable's length, and every assigned pair of neighbors agreeing at
the overlap indices. -/
def consistent (cw : Crossword) (a : Assignment) : Bool :=
  distinctValues a &&
  a.all (fun p =>
    decide (p.2.length = p.1.length) &&
    (neighbors cw p.1).all (fun n =>
      match lookupA a n with
      | none => true
      | some w2 =>
        match cw.overlaps p.1 n with
        | none => true
        | some (i, j) => decide (p.2.get? i = w2.get? j)))

/-- Stable insertion into a sorted list, used to model Python's `sort`. -/
def insertSorted (le : α → α → Bool) (x : α) : List α → List α
  | [] => [x]
  | y :: ys => if le x y then x :: y :: ys else y :: insertSorted le x ys

/-- Insertion sort by a boolean comparison, modelling `list.sort(key=...)` /
`sorted(..., key=...)` (any sort agreeing with the key order works: the
source's tie order is implementation-defined, spec §9). -/
def sortByLe (le : α → α → Bool) (l : List α) : List α :=
  l.foldr (insertSorted le) []

/-- `count_conflicts` inside `order_domain_values`: how many words across
the domains of unassigned neighbors conflict with `value` at the overlap. -/
def countConflicts (cw : Crossword) (d : Domains) (var : Variable) (a : Assignment)
    (value : Word) : Nat :=
  ((neighbors cw var).map (fun n =>
    if (lookupA a n).isSome then 0
    else
      match cw.overlaps var n with
      | none => 0
      | some (i, j) => (d n).countP (fun w2 => ! decide (value.get? i = w2.get? j)))).sum

/-- `CrosswordCreator.order_domain_values`: the domain of `var` sorted
ascending by conflict count (least-constraining value first). -/
def order_domain_values (cw : Crossword) (d : Domains) (var : Variable) (a : Assignment) :
    List Word :=
  sortByLe (fun w1 w2 => decide (countConflicts cw d var a w1 ≤ countConflicts cw d var a w2))
    (d var)

/-- The sort key of `select_unassigned_variable`, as a boolean order:
ascending domain size, ties broken by descending neighbor count
(`key=lambda var: (len(self.domains[var]), -len(self.crossword.neighbors(var)))`). -/
def mrvLe (cw : Crossword) (d : Domains) (v1 v2 : Variable) : Bool :=
  decide ((d v1).length < (d v2).length) ||
  (decide ((d v1).length = (d v2).length) &&
    decide ((neighbors cw v2).length ≤ (neighbors cw v1).length))

/-- `CrosswordCreator.select_unassigned_variable`: sort the unassigned
variables by the MRV/degree key and take the first (`None` if all are
assigned). -/
def select_unassigned_variable (cw : Crossword) (d : Domains) (a : Assignment) :
    Option Variable :=
  (sortByLe (mrvLe cw d) (cw.vars.filter (fun v => decide (v ∉ keysA a)))).head?

/-- `CrosswordCreator.backtrack`, fuel-indexed: if the assignment is
complete return it; otherwise select an unassigned variable and try its
ordered domain values, recursing on the first consistent extension that
succeeds (`List.findSome?` returns the first non-`none` attempt, exactly
the `for`-loop of the source). -/
def backtrack (cw : Crossword) (d : Domains) : Nat → Assignment → Option Assignment
  | 0, _ => none
  | fuel + 1, a =>
    if assignment_complete cw a then some a
    else
      match select_unassigned_variable cw d a with
      | none => none
      | some var =>
        (order_domain_values cw d var a).findSome? (fun value =>
          if consistent cw (insertA a var value) then backtrack cw d fuel (insertA a var value)
          else none)

/-- `CrosswordCreator.solve`: enforce node consistency, run `ac3` (its
Boolean result is discarded by the source — only the pruned domain store is
kept), then backtrack from the empty assignment. -/
def solve (cw : Crossword) : Option Assignment :=
  backtrack cw (ac3 cw none (enforce_node_consistency (initDomains cw))).2
    (cw.vars.length + 1) []

/-- `solve` instrumented with a flag recording whether the backtracking
search is invoked.  The source (`generate.py`, lines 86–93) calls
`self.backtrack(dict())` unconditionally — it never inspects `ac3`'s return
value — so the flag is `true` on every control path. -/
def solveTrace (cw : Crossword) : Option Assignment × Bool :=
  (backtrack cw (ac3 cw none (enforce_node_consistency (initDomains cw))).2
    (cw.vars.length + 1) [], true)

/-- Modelled from the spec: the orchestration the spec describes for
`solve()` — "if AC-3 reports an emptied domain, short-circuit to failure
without invoking search" (spec §4.4).  The flag records whether the
backtracking search is invoked. -/
def solveSpecShortCircuit (cw : Crossword) : Option Assignment × Bool :=
  if (ac3 cw none (enforce_node_consistency (initDomains cw))).1 then
    (backtrack cw (ac3 cw none (enforce_node_consistency (initDomains cw))).2
      (cw.vars.length + 1) [], true)
  else (none, false)

/-- Symmetry of the overlap relation on the puzzle's variables, as the spec
states it (spec §3: "overlap(x,y) = (i,j) implies overlap(y,x) = (j,i)"). -/
def OverlapsSymm (cw : Crossword) : Prop :=
  ∀ x ∈ cw.vars, ∀ y ∈ cw.vars, ∀ i j,
    cw.overlaps x y = some (i, j) → cw.overlaps y x = some (j, i)

/-- Arc consistency of `x` with `y` in a domain store: every word of `x`'s
domain has a supporting word in `y`'s domain at the overlap indices. -/
def ArcCons (cw : Crossword) (d : Domains) (x y : Variable) : Prop :=
  ∀ i j, cw.overlaps x y = some (i, j) →
    ∀ w ∈ d x, ∃ w2 ∈ d y, w.get? i = w2.get? j

/-- Worklist invariant of `ac3`: every queued arc joins a puzzle variable to
one of its neighbors. -/
def QInv (cw : Crossword) (q : List Arc) : Prop :=
  ∀ p ∈ q, p.1 ∈ cw.vars ∧ p.2 ∈ neighbors cw p.1

/-- `a` is a restriction of `s`: every binding of `a` is a binding of `s`. -/
def SubA (a s : Assignment) : Prop :=
  ∀ v w, lookupA a v = some w → lookupA s v = some w

/-- Every word bound by `s` is present in the corresponding domain. -/
def SolIn (s : Assignment) (d : Domains) : Prop :=
  ∀ v w, lookupA s v = some w → w ∈ d v

/-- Example slot: a 1-cell across slot at the origin. -/
def varX : Variable := ⟨0, 0, Direction.across, 1⟩

/-- Example slot: a 2-cell down slot at the origin, crossing `varX` at its
first cell. -/
def varY : Variable := ⟨0, 0, Direction.down, 2⟩

/-- Example slot: a 1-cell down slot at the origin, crossing `varX`. -/
def varZ : Variable := ⟨0, 0, Direction.down, 1⟩

/-- Example puzzle with an unsatisfiable overlap: the only 1-letter word is
`"a"` and the only 2-letter word is `"bc"`, but the shared cell forces the
letters to agree, so AC-3 empties `varX`'s domain. -/
def cwEmpty : Crossword where
  vars := [varX, varY]
  words := [['a'], ['b', 'c']]
  overlaps := fun a b =>
    if a = varX ∧ b = varY then some (0, 0)
    else if a = varY ∧ b = varX then some (0, 0) else none

/-- The node-consistent initial domain store of `cwEmpty`. -/
def dEmpty : Domains := enforce_node_consistency (initDomains cwEmpty)

/-- Example puzzle where two 1-cell slots cross (sharing their letter), with
word list `["a"]`: arc consistency succeeds without pruning. -/
def cwCross : Crossword where
  vars := [varX, varZ]
  words := [['a']]
  overlaps := fun a b =>
    if a = varX ∧ b = varZ then some (0, 0)
    else if a = varZ ∧ b = varX then some (0, 0) else none

/-- Example puzzle with a single 1-cell slot and word list `["a"]`. -/
def cwSingle : Crossword where
  vars := [varX]
  words := [['a']]
  overlaps := fun _ _ => none

/-! ### Lemmas about the sorting routine -/

theorem mem_insertSorted {α : Type*} {le : α → α → Bool} {x y : α} {l : List α} :
    y ∈ insertSorted le x l ↔ y = x ∨ y ∈ l := by
  induction l with
  | nil => simp [insertSorted]
  | cons z zs ih =>
    simp only [insertSorted]
    split
    · simp [List.mem_cons]
    · simp only [List.mem_cons, ih]
      tauto

theorem length_insertSorted {α : Type*} (le : α → α → Bool) (x : α) (l : List α) :
    (insertSorted le x l).length = l.length + 1 := by
  induction l with
  | nil => rfl
  | cons z zs ih =>
    simp only [insertSorted]
    split <;> simp [List.length_cons, ih]

theorem mem_sortByLe {α : Type*} {le : α → α → Bool} {y : α} {l : List α} :
    y ∈ sortByLe le l ↔ y ∈ l := by
  induction l with
  | nil => simp [sortByLe]
  | cons z zs ih =>
    simp only [sortByLe, List.foldr_cons] at *
    rw [mem_insertSorted, List.mem_cons, ih]

theorem length_sortByLe {α : Type*} (le : α → α → Bool) (l : List α) :
    (sortByLe le l).length = l.length := by
  induction l with
  | nil => rfl
  | cons z zs ih =>
    simp only [sortByLe, List.foldr_cons] at *
    rw [length_insertSorted, ih, List.length_cons]

theorem pairwise_insertSorted {α : Type*} {le : α → α → Bool}
    (htot : ∀ a b, (le a b || le b a) = true)
    (htrans : ∀ a b c, le a b = true → le b c = true → le a c = true)
    (x : α) {l : List α} (h : l.Pairwise (fun a b => le a b = true)) :
    (insertSorted le x l).Pairwise (fun a b => le a b = true) := by
  induction l with
  | nil => simp [insertSorted]
  | cons z zs ih =>
    rw [List.pairwise_cons] at h
    obtain ⟨hz, hzs⟩ := h
    simp only [insertSorted]
    split
    · rename_i hxz
      rw [List.pairwise_cons]
      refine ⟨?_, ?_⟩
      · intro b hb
        rcases List.mem_cons.mp hb with rfl | hb
        · exact hxz
        · exact htrans x z b hxz (hz b hb)
      · rw [List.pairwise_cons]; exact ⟨hz, hzs⟩
    · rename_i hxz
      rw [List.pairwise_cons]
      refine ⟨?_, ih hzs⟩
      intro b hb
      rcases mem_insertSorted.mp hb with rfl | hb
      · have := htot b z
        rcases Bool.or_eq_true_iff.mp this with h1 | h1
        · exact absurd h1 hxz
        · exact h1
      · exact hz b hb

theorem pairwise_sortByLe {α : Type*} {le : α → α → Bool}
    (htot : ∀ a b, (le a b || le b a) = true)
    (htrans : ∀ a b c, le a b = true → le b c = true → le a c = true)
    (l : List α) :
    (sortByLe le l).Pairwise (fun a b => le a b = true) := by
  induction l with
  | nil => simp [sortByLe]
  | cons z zs ih =>
    simp only [sortByLe, List.foldr_cons] at *
    exact pairwise_insertSorted htot htrans z ih

theorem head_sortByLe {α : Type*} {le : α → α → Bool}
    (htot : ∀ a b, (le a b || le b a) = true)
    (htrans : ∀ a b c, le a b = true → le b c = true → le a c = true)
    {l : List α} {v : α} {rest : List α} (h : sortByLe le l = v :: rest) :
    ∀ u ∈ l, le v u = true := by
  have hp := pairwise_sortByLe htot htrans l
  intro u hu
  have hu' : u ∈ sortByLe le l := mem_sortByLe.mpr hu
  rw [h] at hu' hp
  rcases List.mem_cons.mp hu' with rfl | hu'
  · have := htot u u
    rcases Bool.or_eq_true_iff.mp this with h1 | h1 <;> exact h1
  · exact (List.pairwise_cons.mp hp).1 u hu'

/-! ### Lemmas about `revise` -/

theorem hasSupport_iff {d : Domains} {y : Variable} {i j : Nat} {w : Word} :
    hasSupport d y i j w = true ↔ ∃ w2 ∈ d y, w.get? i = w2.get? j := by
  simp [hasSupport, List.any_eq_true]

theorem mem_toRemoveList {d : Domains} {x y : Variable} {i j : Nat} {w : Word} :
    w ∈ toRemoveList d x y i j ↔ w ∈ d x ∧ hasSupport d y i j w = false := by
  simp [toRemoveList, List.mem_filter]

theorem revise_snd_ne {cw : Crossword} {x y v : Variable} {d : Domains} (h : v ≠ x) :
    (revise cw x y d).2 v = d v := by
  unfold revise
  split
  · rfl
  · split
    · rfl
    · simp only
      rw [if_neg h]

theorem revise_none {cw : Crossword} {x y : Variable} {d : Domains}
    (h : cw.overlaps x y = none) : revise cw x y d = (false, d) := by
  unfold revise
  rw [h]

theorem revise_false_snd {cw : Crossword} {x y : Variable} {d : Domains}
    (h : (revise cw x y d).1 = false) : (revise cw x y d).2 = d := by
  unfold revise at *
  split at h
  · rfl
  · split at h
    · rename_i he
      rw [if_pos he]
    · simp at h

theorem revise_mem_x {cw : Crossword} {x y : Variable} {d : Domains} {i j : Nat}
    (h : cw.overlaps x y = some (i, j)) (w : Word) :
    w ∈ (revise cw x y d).2 x ↔ w ∈ d x ∧ hasSupport d y i j w = true := by
  simp only [revise, h]
  split
  · rename_i he
    rw [List.isEmpty_iff] at he
    simp only
    constructor
    · intro hw
      refine ⟨hw, ?_⟩
      by_contra hs
      rw [Bool.not_eq_true] at hs
      have : w ∈ toRemoveList d x y i j := mem_toRemoveList.mpr ⟨hw, hs⟩
      rw [he] at this
      simp at this
    · intro hw; exact hw.1
  · show w ∈ (if x = x then (d x).filter (fun w2 => decide (w2 ∉ toRemoveList d x y i j)) else d x)
      ↔ w ∈ d x ∧ hasSupport d y i j w = true
    rw [if_pos rfl, List.mem_filter]
    simp only [decide_eq_true_eq]
    constructor
    · rintro ⟨hw, hnr⟩
      refine ⟨hw, ?_⟩
      by_contra hs
      rw [Bool.not_eq_true] at hs
      exact hnr (mem_toRemoveList.mpr ⟨hw, hs⟩)
    · rintro ⟨hw, hs⟩
      refine ⟨hw, ?_⟩
      intro hmem
      have h2 := (mem_toRemoveList.mp hmem).2
      rw [hs] at h2
      simp at h2

theorem revise_subset {cw : Crossword} {x y v : Variable} {d : Domains} {w : Word}
    (h : w ∈ (revise cw x y d).2 v) : w ∈ d v := by
  by_cases hv : v = x
  · rw [hv] at h ⊢
    rcases hov : cw.overlaps x y with _ | ⟨i, j⟩
    · rw [revise_none hov] at h; exact h
    · exact ((revise_mem_x hov w).mp h).1
  · rw [revise_snd_ne hv] at h; exact h

theorem revise_true_iff {cw : Crossword} {x y : Variable} {d : Domains} {i j : Nat}
    (h : cw.overlaps x y = some (i, j)) :
    (revise cw x y d).1 = true ↔ ∃ w ∈ d x, hasSupport d y i j w = false := by
  simp only [revise, h]
  split
  · rename_i he
    rw [List.isEmpty_iff] at he
    simp only [Bool.false_eq_true, false_iff]
    rintro ⟨w, hw, hs⟩
    have : w ∈ toRemoveList d x y i j := mem_toRemoveList.mpr ⟨hw, hs⟩
    rw [he] at this
    simp at this
  · rename_i he
    rw [List.isEmpty_iff] at he
    simp only [true_iff]
    rcases List.exists_mem_of_ne_nil _ he with ⟨w, hw⟩
    have := mem_toRemoveList.mp hw
    exact ⟨w, this.1, this.2⟩

theorem revise_length_lt {cw : Crossword} {x y : Variable} {d : Domains}
    (h : (revise cw x y d).1 = true) :
    ((revise cw x y d).2 x).length < (d x).length := by
  unfold revise at *
  split at h
  · simp at h
  · rename_i i j hov
    split at h
    · simp at h
    · rename_i he
      rw [if_neg he]
      show ((if x = x then (d x).filter (fun w2 => decide (w2 ∉ toRemoveList d x y i j)) else d x)).length
        < (d x).length
      rw [if_pos rfl, List.length_filter_lt_length_iff_exists]
      rw [List.isEmpty_iff] at he
      rcases List.exists_mem_of_ne_nil _ he with ⟨w, hw⟩
      have hw2 := mem_toRemoveList.mp hw
      exact ⟨w, hw2.1, by simp [hw]⟩

theorem revise_length_le {cw : Crossword} (x y v : Variable) (d : Domains) :
    ((revise cw x y d).2 v).length ≤ (d v).length := by
  by_cases hv : v = x
  · rw [hv]
    unfold revise
    split
    · exact le_rfl
    · rename_i i j hov
      split
      · exact le_rfl
      · show ((if x = x then (d x).filter (fun w2 => decide (w2 ∉ toRemoveList d x y i j)) else d x)).length
          ≤ (d x).length
        rw [if_pos rfl]
        exact List.length_filter_le _ _
  · rw [revise_snd_ne hv]

/-! ### Lemmas about the neighbor relation and the AC-3 worklist -/

theorem mem_neighbors_iff {cw : Crossword} {x z : Variable} :
    z ∈ neighbors cw x ↔ z ∈ cw.vars ∧ z ≠ x ∧ (cw.overlaps x z).isSome = true := by
  simp [neighbors, List.mem_filter, Bool.and_eq_true, decide_eq_true_eq, and_assoc]

theorem mem_neighbors_symm {cw : Crossword} (hs : OverlapsSymm cw) {x z : Variable}
    (hx : x ∈ cw.vars) (h : z ∈ neighbors cw x) : x ∈ neighbors cw z := by
  obtain ⟨hzv, hzx, hov⟩ := mem_neighbors_iff.mp h
  rcases Option.isSome_iff_exists.mp hov with ⟨⟨i, j⟩, hij⟩
  refine mem_neighbors_iff.mpr ⟨hx, fun he => hzx he.symm, ?_⟩
  rw [hs x hx z hzv i j hij]
  rfl

theorem QInv_defaultArcs (cw : Crossword) : QInv cw (defaultArcs cw) := by
  intro p hp
  rcases List.mem_flatMap.mp hp with ⟨x, hx, hp2⟩
  rcases List.mem_map.mp hp2 with ⟨y, hy, rfl⟩
  exact ⟨hx, hy⟩

theorem mem_defaultArcs {cw : Crossword} {x y : Variable}
    (hx : x ∈ cw.vars) (hy : y ∈ neighbors cw x) : (x, y) ∈ defaultArcs cw := by
  exact List.mem_flatMap.mpr ⟨x, hx, List.mem_map.mpr ⟨y, hy, rfl⟩⟩

theorem QInv_step {cw : Crossword} (hs : OverlapsSymm cw) {x y : Variable} {rest : List Arc}
    (hq : QInv cw ((x, y) :: rest)) :
    QInv cw (rest ++ ((neighbors cw x).filter (fun z => decide (z ≠ y))).map (fun z => (z, x))) := by
  intro p hp
  rcases List.mem_append.mp hp with hp | hp
  · exact hq p (List.mem_cons_of_mem _ hp)
  · rcases List.mem_map.mp hp with ⟨z, hz, rfl⟩
    have hz2 : z ∈ neighbors cw x := (List.mem_filter.mp hz).1
    have hx : x ∈ cw.vars := (hq _ (List.mem_cons_self _ _)).1
    exact ⟨(mem_neighbors_iff.mp hz2).1, mem_neighbors_symm hs hx hz2⟩

theorem ac3Fuel_nil (cw : Crossword) (fuel : Nat) (d : Domains) :
    ac3Fuel cw fuel [] d = some (true, d) := by
  cases fuel <;> rfl

theorem ac3Fuel_cons (cw : Crossword) (n : Nat) (x y : Variable) (rest : List Arc)
    (d : Domains) :
    ac3Fuel cw (n + 1) ((x, y) :: rest) d =
      if (revise cw x y d).1 = true then
        if ((revise cw x y d).2 x).isEmpty = true then some (false, (revise cw x y d).2)
        else ac3Fuel cw n
          (rest ++ ((neighbors cw x).filter (fun z => decide (z ≠ y))).map (fun z => (z, x)))
          (revise cw x y d).2
      else ac3Fuel cw n rest d := by
  simp only [ac3Fuel]
  rcases h : revise cw x y d with ⟨flag, dr⟩
  cases flag
  · simp
  · simp

theorem ac3Fuel_subset {cw : Crossword} :
    ∀ (fuel : Nat) (q : List Arc) (d : Domains) (b : Bool) (d2 : Domains),
      ac3Fuel cw fuel q d = some (b, d2) → ∀ v w, w ∈ d2 v → w ∈ d v := by
  intro fuel
  induction fuel with
  | zero =>
    intro q d b d2 h v w hw
    cases q with
    | nil =>
      rw [ac3Fuel_nil] at h
      simp only [Option.some.injEq, Prod.mk.injEq] at h
      rw [h.2]
      exact hw
    | cons p rest => simp [ac3Fuel] at h
  | succ n ih =>
    intro q d b d2 h v w hw
    cases q with
    | nil =>
      rw [ac3Fuel_nil] at h
      simp only [Option.some.injEq, Prod.mk.injEq] at h
      rw [h.2]
      exact hw
    | cons p rest =>
      obtain ⟨x, y⟩ := p
      rw [ac3Fuel_cons] at h
      by_cases hflag : (revise cw x y d).1 = true
      · rw [if_pos hflag] at h
        by_cases hemp : (((revise cw x y d).2) x).isEmpty = true
        · rw [if_pos hemp] at h
          simp only [Option.some.injEq, Prod.mk.injEq] at h
          rw [← h.2] at hw
          exact revise_subset hw
        · rw [if_neg hemp] at h
          exact revise_subset (ih _ _ b d2 h v w hw)
      · rw [if_neg hflag] at h
        exact ih rest d b d2 h v w hw

theorem ac3_subset {cw : Crossword} (arcs : Option (List Arc)) (d : Domains) :
    ∀ v w, w ∈ (ac3 cw arcs d).2 v → w ∈ d v := by
  intro v w hw
  unfold ac3 at hw
  rcases h : ac3Fuel cw (fuelBound cw (ac3Queue cw arcs) d) (ac3Queue cw arcs) d
    with _ | ⟨b, d2⟩
  · rw [h] at hw
    exact hw
  · rw [h] at hw
    exact ac3Fuel_subset _ _ _ _ _ h v w hw

theorem totalSize_revise_lt {cw : Crossword} {x y : Variable} {d : Domains}
    (hx : x ∈ cw.vars) (h : (revise cw x y d).1 = true) :
    totalSize cw (revise cw x y d).2 < totalSize cw d := by
  unfold totalSize
  exact List.sum_lt_sum _ _ (fun v _ => revise_length_le x y v d) ⟨x, hx, revise_length_lt h⟩

theorem ac3Fuel_isSome {cw : Crossword} :
    ∀ (fuel : Nat) (q : List Arc) (d : Domains),
      (∀ p ∈ q, p.1 ∈ cw.vars) →
      q.length + cw.vars.length * totalSize cw d ≤ fuel →
      (ac3Fuel cw fuel q d).isSome = true := by
  intro fuel
  induction fuel with
  | zero =>
    intro q d hq hb
    cases q with
    | nil => simp [ac3Fuel_nil]
    | cons p rest =>
      rw [List.length_cons] at hb
      omega
  | succ n ih =>
    intro q d hq hb
    cases q with
    | nil => simp [ac3Fuel_nil]
    | cons p rest =>
      obtain ⟨x, y⟩ := p
      rw [ac3Fuel_cons]
      by_cases hflag : (revise cw x y d).1 = true
      · rw [if_pos hflag]
        by_cases hemp : (((revise cw x y d).2) x).isEmpty = true
        · rw [if_pos hemp]
          rfl
        · rw [if_neg hemp]
          have hx : x ∈ cw.vars := hq _ (List.mem_cons_self _ _)
          refine ih _ _ ?_ ?_
          · intro p hp
            rcases List.mem_append.mp hp with hp | hp
            · exact hq p (List.mem_cons_of_mem _ hp)
            · rcases List.mem_map.mp hp with ⟨z, hz, rfl⟩
              exact (mem_neighbors_iff.mp (List.mem_filter.mp hz).1).1
          · have hT : totalSize cw (revise cw x y d).2 + 1 ≤ totalSize cw d :=
              totalSize_revise_lt hx hflag
            have hlen : (((neighbors cw x).filter (fun z => decide (z ≠ y))).map
                (fun z => (z, x))).length ≤ cw.vars.length := by
              rw [List.length_map]
              exact le_trans (List.length_filter_le _ _) (List.length_filter_le _ _)
            rw [List.length_append]
            rw [List.length_cons] at hb
            have hmul : cw.vars.length * totalSize cw (revise cw x y d).2 + cw.vars.length
                ≤ cw.vars.length * totalSize cw d := by
              rw [← Nat.mul_succ]
              exact Nat.mul_le_mul_left _ hT
            omega
      · rw [if_neg hflag]
        refine ih rest d (fun p hp => hq p (List.mem_cons_of_mem _ hp)) ?_
        rw [List.length_cons] at hb
        omega

theorem ac3Fuel_false_empty {cw : Crossword} :
    ∀ (fuel : Nat) (q : List Arc) (d : Domains) (d2 : Domains),
      (∀ p ∈ q, p.1 ∈ cw.vars) →
      ac3Fuel cw fuel q d = some (false, d2) →
      ∃ v ∈ cw.vars, d2 v = [] := by
  intro fuel
  induction fuel with
  | zero =>
    intro q d d2 hq h
    cases q with
    | nil => rw [ac3Fuel_nil] at h; simp at h
    | cons p rest => simp [ac3Fuel] at h
  | succ n ih =>
    intro q d d2 hq h
    cases q with
    | nil => rw [ac3Fuel_nil] at h; simp at h
    | cons p rest =>
      obtain ⟨x, y⟩ := p
      rw [ac3Fuel_cons] at h
      by_cases hflag : (revise cw x y d).1 = true
      · rw [if_pos hflag] at h
        by_cases hemp : (((revise cw x y d).2) x).isEmpty = true
        · rw [if_pos hemp] at h
          simp only [Option.some.injEq, Prod.mk.injEq] at h
          refine ⟨x, hq _ (List.mem_cons_self _ _), ?_⟩
          rw [← h.2]
          exact List.isEmpty_iff.mp hemp
        · rw [if_neg hemp] at h
          refine ih _ _ d2 ?_ h
          intro p hp
          rcases List.mem_append.mp hp with hp | hp
          · exact hq p (List.mem_cons_of_mem _ hp)
          · rcases List.mem_map.mp hp with ⟨z, hz, rfl⟩
            exact (mem_neighbors_iff.mp (List.mem_filter.mp hz).1).1
      · rw [if_neg hflag] at h
        exact ih rest d d2 (fun p hp => hq p (List.mem_cons_of_mem _ hp)) h

theorem revise_preserves_sol {cw : Crossword} {s : Assignment} {x y : Variable} {d : Domains}
    (hxy : ∀ i j, cw.overlaps x y = some (i, j) →
      ∃ wx wy, lookupA s x = some wx ∧ lookupA s y = some wy ∧ wx.get? i = wy.get? j)
    (hin : SolIn s d) : SolIn s (revise cw x y d).2 := by
  intro v w hv
  by_cases hvx : v = x
  · rw [hvx] at hv ⊢
    rcases hov : cw.overlaps x y with _ | ⟨i, j⟩
    · rw [revise_none hov]
      exact hin x w hv
    · rw [revise_mem_x hov]
      refine ⟨hin x w hv, ?_⟩
      obtain ⟨wx, wy, hlx, hly, hag⟩ := hxy i j hov
      rw [hv] at hlx
      injection hlx with hlx
      rw [hasSupport_iff]
      refine ⟨wy, hin y wy hly, ?_⟩
      rw [← hlx] at hag
      exact hag
  · rw [revise_snd_ne hvx]
    exact hin v w hv

theorem ac3Fuel_preserves_sol {cw : Crossword} {s : Assignment}
    (hs : OverlapsSymm cw)
    (hagree : ∀ x y i j, x ∈ cw.vars → y ∈ neighbors cw x → cw.overlaps x y = some (i, j) →
      ∃ wx wy, lookupA s x = some wx ∧ lookupA s y = some wy ∧ wx.get? i = wy.get? j) :
    ∀ (fuel : Nat) (q : List Arc) (d : Domains) (b : Bool) (d2 : Domains),
      QInv cw q → SolIn s d → ac3Fuel cw fuel q d = some (b, d2) → SolIn s d2 := by
  intro fuel
  induction fuel with
  | zero =>
    intro q d b d2 hq hin h
    cases q with
    | nil =>
      rw [ac3Fuel_nil] at h
      simp only [Option.some.injEq, Prod.mk.injEq] at h
      rw [← h.2]
      exact hin
    | cons p rest => simp [ac3Fuel] at h
  | succ n ih =>
    intro q d b d2 hq hin h
    cases q with
    | nil =>
      rw [ac3Fuel_nil] at h
      simp only [Option.some.injEq, Prod.mk.injEq] at h
      rw [← h.2]
      exact hin
    | cons p rest =>
      obtain ⟨x, y⟩ := p
      have hx : x ∈ cw.vars := (hq _ (List.mem_cons_self _ _)).1
      have hy : y ∈ neighbors cw x := (hq _ (List.mem_cons_self _ _)).2
      have hinr : SolIn s (revise cw x y d).2 :=
        revise_preserves_sol (fun i j hov => hagree x y i j hx hy hov) hin
      rw [ac3Fuel_cons] at h
      by_cases hflag : (revise cw x y d).1 = true
      · rw [if_pos hflag] at h
        by_cases hemp : (((revise cw x y d).2) x).isEmpty = true
        · rw [if_pos hemp] at h
          simp only [Option.some.injEq, Prod.mk.injEq] at h
          rw [← h.2]
          exact hinr
        · rw [if_neg hemp] at h
          exact ih _ _ b d2 (QInv_step hs hq) hinr h
      · rw [if_neg hflag] at h
        exact ih rest d b d2 (fun p hp => hq p (List.mem_cons_of_mem _ hp)) hin h

theorem arcCons_of_revise_false {cw : Crossword} {x y : Variable} {d : Domains}
    (h : (revise cw x y d).1 = false) : ArcCons cw d x y := by
  intro i j hov w hw
  by_cases hsup : hasSupport d y i j w = true
  · exact hasSupport_iff.mp hsup
  · exfalso
    rw [Bool.not_eq_true] at hsup
    have h2 : (revise cw x y d).1 = true := (revise_true_iff hov).mpr ⟨w, hw, hsup⟩
    rw [h] at h2
    simp at h2

theorem arcCons_after_revise {cw : Crossword} {x y : Variable} {d : Domains} (hxy : y ≠ x) :
    ArcCons cw (revise cw x y d).2 x y := by
  intro i j hov w hw
  have hmem := (revise_mem_x hov w).mp hw
  rcases hasSupport_iff.mp hmem.2 with ⟨w2, hw2, hag⟩
  refine ⟨w2, ?_, hag⟩
  rw [revise_snd_ne hxy]
  exact hw2

theorem arcCons_shrink {cw : Crossword} {d d2 : Domains} {x v : Variable}
    (h : ArcCons cw d x v) (hsub : ∀ w ∈ d2 x, w ∈ d x) (hv : d2 v = d v) :
    ArcCons cw d2 x v := by
  intro i j hov w hw
  rcases h i j hov w (hsub w hw) with ⟨w2, hw2, hag⟩
  refine ⟨w2, ?_, hag⟩
  rw [hv]
  exact hw2

theorem arcCons_rev_preserved {cw : Crossword} {x y : Variable} {d : Domains} {i j : Nat}
    (hsymm : OverlapsSymm cw) (hx : x ∈ cw.vars) (hy : y ∈ cw.vars) (hyx : y ≠ x)
    (hov : cw.overlaps x y = some (i, j))
    (h : ArcCons cw d y x) : ArcCons cw (revise cw x y d).2 y x := by
  intro i2 j2 hov2 w hw
  rw [revise_snd_ne hyx] at hw
  rcases h i2 j2 hov2 w hw with ⟨w2, hw2, hag⟩
  have hsym := hsymm x hx y hy i j hov
  rw [hov2] at hsym
  simp only [Option.some.injEq, Prod.mk.injEq] at hsym
  obtain ⟨rfl, rfl⟩ := hsym
  exact ⟨w2, (revise_mem_x hov w2).mpr ⟨hw2, hasSupport_iff.mpr ⟨w, hw, hag.symm⟩⟩, hag⟩

theorem ac3Fuel_arcCons {cw : Crossword} (hsymm : OverlapsSymm cw) :
    ∀ (fuel : Nat) (q : List Arc) (d d2 : Domains),
      QInv cw q →
      ac3Fuel cw fuel q d = some (true, d2) →
      (∀ x ∈ cw.vars, ∀ y ∈ neighbors cw x, (x, y) ∉ q → ArcCons cw d x y) →
      ∀ x ∈ cw.vars, ∀ y ∈ neighbors cw x, ArcCons cw d2 x y := by
  intro fuel
  induction fuel with
  | zero =>
    intro q d d2 hq h hinv x hx y hy
    cases q with
    | nil =>
      rw [ac3Fuel_nil] at h
      simp only [Option.some.injEq, Prod.mk.injEq] at h
      rw [← h.2]
      exact hinv x hx y hy (List.not_mem_nil _)
    | cons p rest => simp [ac3Fuel] at h
  | succ n ih =>
    intro q d d2 hq h hinv x hx y hy
    cases q with
    | nil =>
      rw [ac3Fuel_nil] at h
      simp only [Option.some.injEq, Prod.mk.injEq] at h
      rw [← h.2]
      exact hinv x hx y hy (List.not_mem_nil _)
    | cons p rest =>
      obtain ⟨a, b⟩ := p
      have hav : a ∈ cw.vars := (hq _ (List.mem_cons_self _ _)).1
      have hbn : b ∈ neighbors cw a := (hq _ (List.mem_cons_self _ _)).2
      have hba : b ≠ a := (mem_neighbors_iff.mp hbn).2.1
      have hbv : b ∈ cw.vars := (mem_neighbors_iff.mp hbn).1
      rw [ac3Fuel_cons] at h
      by_cases hflag : (revise cw a b d).1 = true
      · rw [if_pos hflag] at h
        by_cases hemp : (((revise cw a b d).2) a).isEmpty = true
        · rw [if_pos hemp] at h
          simp at h
        · rw [if_neg hemp] at h
          refine ih _ (revise cw a b d).2 d2 (QInv_step hsymm hq) h ?_ x hx y hy
          intro u hu v hv huv
          rw [List.mem_append] at huv
          push_neg at huv
          obtain ⟨hur, hun⟩ := huv
          by_cases hua : u = a
          · subst hua
            by_cases hvb : v = b
            · subst hvb
              exact arcCons_after_revise hba
            · have hva : v ≠ u := (mem_neighbors_iff.mp hv).2.1
              have hnotq : (u, v) ∉ (u, b) :: rest := by
                intro hmem
                rcases List.mem_cons.mp hmem with he | hm
                · injection he with h1 h2
                  exact hvb h2
                · exact hur hm
              have hac := hinv u hu v hv hnotq
              refine arcCons_shrink hac ?_ ?_
              · intro w hw
                exact revise_subset hw
              · exact revise_snd_ne hva
          · by_cases hva : v = a
            · subst hva
              have hun2 : u ∈ neighbors cw v := mem_neighbors_symm hsymm hu hv
              by_cases hub : u = b
              · subst hub
                have hnotq : (u, v) ∉ (v, u) :: rest := by
                  intro hmem
                  rcases List.mem_cons.mp hmem with he | hm
                  · injection he with h1 h2
                    exact hua h1
                  · exact hur hm
                have hac := hinv u hu v hv hnotq
                rcases Option.isSome_iff_exists.mp (mem_neighbors_iff.mp hbn).2.2
                  with ⟨⟨i, j⟩, hov⟩
                exact arcCons_rev_preserved hsymm hav hbv hba hov hac
              · exfalso
                apply hun
                apply List.mem_map.mpr
                refine ⟨u, List.mem_filter.mpr ⟨hun2, ?_⟩, rfl⟩
                simp [hub]
            · have hnotq : (u, v) ∉ (a, b) :: rest := by
                intro hmem
                rcases List.mem_cons.mp hmem with he | hm
                · injection he with h1 h2
                  exact hua h1
                · exact hur hm
              have hac := hinv u hu v hv hnotq
              refine arcCons_shrink hac ?_ ?_
              · intro w hw
                exact revise_subset hw
              · exact revise_snd_ne hva
      · rw [if_neg hflag] at h
        refine ih rest d d2 (fun p hp => hq p (List.mem_cons_of_mem _ hp)) h ?_ x hx y hy
        intro u hu v hv huv
        by_cases hab : (u, v) = (a, b)
        · injection hab with h1 h2
          subst h1; subst h2
          exact arcCons_of_revise_false (by rw [Bool.not_eq_true] at hflag; exact hflag)
        · refine hinv u hu v hv ?_
          intro hmem
          rcases List.mem_cons.mp hmem with he | hm
          · exact hab he
          · exact huv hm


/-! ### Lemmas about assignments -/

theorem lookupA_mem : ∀ {a : Assignment} {v : Variable} {w : Word},
    lookupA a v = some w → (v, w) ∈ a := by
  intro a
  induction a with
  | nil => intro v w h; simp [lookupA] at h
  | cons p rest ih =>
    intro v w h
    rcases p with ⟨u, w2⟩
    rw [lookupA] at h
    by_cases huv : u = v
    · rw [if_pos huv] at h
      injection h with h
      rw [← huv, ← h]
      exact List.mem_cons_self _ _
    · rw [if_neg huv] at h
      exact List.mem_cons_of_mem _ (ih h)

theorem mem_lookupA : ∀ {a : Assignment} {v : Variable} {w : Word},
    (keysA a).Nodup → (v, w) ∈ a → lookupA a v = some w := by
  intro a
  induction a with
  | nil => intro v w _ h; simp at h
  | cons p rest ih =>
    intro v w hnd h
    rcases p with ⟨u, w2⟩
    rw [keysA, List.map_cons, List.nodup_cons] at hnd
    rw [lookupA]
    rcases List.mem_cons.mp h with he | hm
    · injection he with h1 h2
      rw [if_pos h1.symm, h2]
    · have hv : v ∈ keysA rest := List.mem_map.mpr ⟨(v, w), hm, rfl⟩
      have huv : u ≠ v := by
        intro he
        rw [he] at hnd
        exact hnd.1 hv
      rw [if_neg huv]
      exact ih hnd.2 hm

theorem lookupA_isSome_of_mem : ∀ {a : Assignment} {v : Variable},
    v ∈ keysA a → ∃ w, lookupA a v = some w := by
  intro a
  induction a with
  | nil => intro v h; simp [keysA] at h
  | cons p rest ih =>
    intro v h
    rcases p with ⟨u, w⟩
    by_cases huv : u = v
    · exact ⟨w, by rw [lookupA, if_pos huv]⟩
    · have hv : v ∈ keysA rest := by
        rw [keysA, List.map_cons, List.mem_cons] at h
        rcases h with h | h
        · exact absurd h.symm huv
        · exact h
      rcases ih hv with ⟨w2, hw2⟩
      exact ⟨w2, by rw [lookupA, if_neg huv]; exact hw2⟩

theorem insertA_of_not_mem {a : Assignment} {v : Variable} {w : Word}
    (h : v ∉ keysA a) : insertA a v w = a ++ [(v, w)] := by
  rw [insertA, if_neg (by simpa using h)]

theorem keysA_insert_fresh {a : Assignment} {v : Variable} {w : Word}
    (h : v ∉ keysA a) : keysA (insertA a v w) = keysA a ++ [v] := by
  rw [insertA_of_not_mem h, keysA, List.map_append]
  rfl

theorem lookupA_insert_fresh {a : Assignment} {v : Variable} {w : Word}
    (h : v ∉ keysA a) (u : Variable) :
    lookupA (insertA a v w) u = if u = v then some w else lookupA a u := by
  rw [insertA_of_not_mem h]
  induction a with
  | nil =>
    rw [List.nil_append]
    show (if v = u then some w else lookupA [] u) = if u = v then some w else lookupA [] u
    by_cases huv : u = v
    · rw [if_pos huv, if_pos huv.symm]
    · rw [if_neg huv, if_neg (fun he => huv he.symm)]
  | cons p rest ih =>
    rcases p with ⟨u2, w2⟩
    have hv2 : v ∉ keysA rest := by
      intro hm
      exact h (List.mem_cons_of_mem _ hm)
    have hv2' : v ∉ keysA ((u2, w2) :: rest) := h
    rw [List.cons_append]
    show (if u2 = u then some w2 else lookupA (rest ++ [(v, w)]) u)
      = if u = v then some w else if u2 = u then some w2 else lookupA rest u
    by_cases hu2 : u2 = u
    · have huv : ¬u = v := by
        intro he
        apply h
        rw [← he, ← hu2]
        exact List.mem_cons_self _ _
      rw [if_pos hu2, if_neg huv, if_pos hu2]
    · rw [if_neg hu2, ih hv2]
      by_cases huv : u = v
      · rw [if_pos huv, if_pos huv]
      · rw [if_neg huv, if_neg huv, if_neg hu2]

theorem SubA_insert {a s : Assignment} {v : Variable} {w : Word}
    (hsub : SubA a s) (hv : v ∉ keysA a) (hs : lookupA s v = some w) :
    SubA (insertA a v w) s := by
  intro u w2 h
  rw [lookupA_insert_fresh hv] at h
  by_cases huv : u = v
  · rw [if_pos huv] at h
    injection h with h
    rw [huv, ← h]
    exact hs
  · rw [if_neg huv] at h
    exact hsub u w2 h

theorem assignment_complete_iff {cw : Crossword} {a : Assignment} :
    assignment_complete cw a = true ↔
      (∀ v ∈ keysA a, v ∈ cw.vars) ∧ (∀ v ∈ cw.vars, v ∈ keysA a) := by
  simp [assignment_complete, List.all_eq_true]

theorem distinctValues_iff {a : Assignment} :
    distinctValues a = true ↔ (a.map Prod.snd).Nodup := by
  rw [distinctValues, Bool.not_eq_true', decide_eq_false_iff_not, not_lt]
  have hlen : (a.map Prod.snd).length = a.length := List.length_map _ _
  constructor
  · intro hle
    have hsub := List.dedup_sublist (a.map Prod.snd)
    rw [← List.dedup_eq_self]
    refine hsub.eq_of_length (le_antisymm hsub.length_le ?_)
    rw [hlen]
    exact hle
  · intro hnd
    rw [← hlen, List.dedup_eq_self.mpr hnd]

theorem consistent_iff {cw : Crossword} {a : Assignment} :
    consistent cw a = true ↔
      distinctValues a = true ∧
      ∀ p ∈ a, p.2.length = p.1.length ∧
        ∀ n ∈ neighbors cw p.1, ∀ w2, lookupA a n = some w2 →
          ∀ i j, cw.overlaps p.1 n = some (i, j) → p.2.get? i = w2.get? j := by
  rw [consistent, Bool.and_eq_true, List.all_eq_true]
  constructor
  · rintro ⟨h1, h2⟩
    refine ⟨h1, ?_⟩
    intro p hp
    have h3 := h2 p hp
    rw [Bool.and_eq_true, decide_eq_true_eq] at h3
    refine ⟨h3.1, ?_⟩
    intro n hn w2 hw2 i j hov
    have h4 := List.all_eq_true.mp h3.2 n hn
    rw [hw2, hov] at h4
    simpa using h4
  · rintro ⟨h1, h2⟩
    refine ⟨h1, ?_⟩
    intro p hp
    rw [Bool.and_eq_true, decide_eq_true_eq]
    obtain ⟨hl, hov⟩ := h2 p hp
    refine ⟨hl, List.all_eq_true.mpr ?_⟩
    intro n hn
    rcases hw2 : lookupA a n with _ | w2
    · simp
    · rcases hovn : cw.overlaps p.1 n with _ | ⟨i, j⟩
      · simp
      · simpa using hov n hn w2 hw2 i j hovn

theorem consistent_nil (cw : Crossword) : consistent cw [] = true := by
  rw [consistent_iff]
  refine ⟨by rw [distinctValues_iff]; simp, ?_⟩
  intro p hp
  simp at hp

theorem values_eq_of_mem {s : Assignment} (hnd : (s.map Prod.snd).Nodup)
    {p q : Variable × Word} (hp : p ∈ s) (hq : q ∈ s) (h : p.2 = q.2) : p = q :=
  List.inj_on_of_nodup_map hnd hp hq h

theorem consistent_of_sub {cw : Crossword} {a s : Assignment}
    (hsub : SubA a s) (hand : (keysA a).Nodup) (hsnd : (keysA s).Nodup)
    (hcons : consistent cw s = true) : consistent cw a = true := by
  rw [consistent_iff] at hcons ⊢
  obtain ⟨hdist, hrest⟩ := hcons
  have hmem : ∀ p ∈ a, p ∈ s := by
    intro p hp
    rcases p with ⟨v, w⟩
    exact lookupA_mem (hsub v w (mem_lookupA hand hp))
  refine ⟨?_, ?_⟩
  · rw [distinctValues_iff] at hdist ⊢
    have hka : a.Pairwise (fun p q => p.1 ≠ q.1) := List.pairwise_map.mp hand
    refine List.pairwise_map.mpr (hka.imp_of_mem ?_)
    intro p q hp hq hne hval
    exact hne (congrArg Prod.fst (values_eq_of_mem hdist (hmem p hp) (hmem q hq) hval))
  · intro p hp
    obtain ⟨hl, hov⟩ := hrest p (hmem p hp)
    refine ⟨hl, ?_⟩
    intro n hn w2 hw2 i j hovn
    exact hov n hn w2 (hsub n w2 hw2) i j hovn

/-! ### Lemmas about variable selection and backtracking -/

theorem mrvLe_total (cw : Crossword) (d : Domains) :
    ∀ a b, (mrvLe cw d a b || mrvLe cw d b a) = true := by
  intro a b
  simp only [mrvLe, Bool.or_eq_true, Bool.and_eq_true, decide_eq_true_eq]
  omega

theorem mrvLe_trans (cw : Crossword) (d : Domains) :
    ∀ a b c, mrvLe cw d a b = true → mrvLe cw d b c = true → mrvLe cw d a c = true := by
  intro a b c hab hbc
  simp only [mrvLe, Bool.or_eq_true, Bool.and_eq_true, decide_eq_true_eq] at *
  omega

theorem select_some_spec {cw : Crossword} {d : Domains} {a : Assignment} {v : Variable}
    (h : select_unassigned_variable cw d a = some v) :
    v ∈ cw.vars ∧ v ∉ keysA a ∧
      ∀ u ∈ cw.vars, u ∉ keysA a → mrvLe cw d v u = true := by
  rw [select_unassigned_variable] at h
  rcases hs : sortByLe (mrvLe cw d) (cw.vars.filter (fun v => decide (v ∉ keysA a)))
    with _ | ⟨v0, rest⟩
  · rw [hs] at h
    simp at h
  · rw [hs] at h
    simp only [List.head?_cons, Option.some.injEq] at h
    subst h
    have hv0 : v0 ∈ cw.vars.filter (fun v => decide (v ∉ keysA a)) := by
      rw [← @mem_sortByLe _ (mrvLe cw d) v0 (cw.vars.filter (fun v => decide (v ∉ keysA a))), hs]
      exact List.mem_cons_self _ _
    have hf := List.mem_filter.mp hv0
    refine ⟨hf.1, by simpa using hf.2, ?_⟩
    intro u hu hua
    refine head_sortByLe (mrvLe_total cw d) (mrvLe_trans cw d) hs u ?_
    exact List.mem_filter.mpr ⟨hu, by simpa⟩

theorem select_isSome {cw : Crossword} {d : Domains} {a : Assignment} {u : Variable}
    (hu : u ∈ cw.vars) (hua : u ∉ keysA a) :
    ∃ v, select_unassigned_variable cw d a = some v := by
  rw [select_unassigned_variable]
  rcases hs : sortByLe (mrvLe cw d) (cw.vars.filter (fun v => decide (v ∉ keysA a)))
    with _ | ⟨v0, rest⟩
  · exfalso
    have : u ∈ sortByLe (mrvLe cw d) (cw.vars.filter (fun v => decide (v ∉ keysA a))) :=
      mem_sortByLe.mpr (List.mem_filter.mpr ⟨hu, by simpa⟩)
    rw [hs] at this
    simp at this
  · exact ⟨v0, rfl⟩

theorem unassigned_count_lt {cw : Crossword} {a : Assignment} {v : Variable} {w : Word}
    (hv : v ∈ cw.vars) (hva : v ∉ keysA a) :
    (cw.vars.filter (fun u => decide (u ∉ keysA (insertA a v w)))).length <
      (cw.vars.filter (fun u => decide (u ∉ keysA a))).length := by
  have hfilter : cw.vars.filter (fun u => decide (u ∉ keysA (insertA a v w)))
      = (cw.vars.filter (fun u => decide (u ∉ keysA a))).filter (fun u => decide (u ≠ v)) := by
    rw [List.filter_filter]
    refine List.filter_congr ?_
    intro u hu
    rw [keysA_insert_fresh hva]
    by_cases h1 : u ∈ keysA a
    · simp [List.mem_append, h1]
    · by_cases h2 : u = v
      · simp [List.mem_append, h1, h2]
      · simp [List.mem_append, h1, h2]
  rw [hfilter, List.length_filter_lt_length_iff_exists]
  exact ⟨v, List.mem_filter.mpr ⟨hv, by simpa⟩, by simp⟩

theorem backtrack_sound {cw : Crossword} {d : Domains} :
    ∀ (fuel : Nat) (a r : Assignment), (keysA a).Nodup → consistent cw a = true →
      backtrack cw d fuel a = some r →
      assignment_complete cw r = true ∧ consistent cw r = true ∧ (keysA r).Nodup := by
  intro fuel
  induction fuel with
  | zero =>
    intro a r _ _ h
    simp [backtrack] at h
  | succ n ih =>
    intro a r hnd hcons h
    by_cases hcomp : assignment_complete cw a = true
    · rw [backtrack, if_pos hcomp] at h
      injection h with h
      rw [← h]
      exact ⟨hcomp, hcons, hnd⟩
    · rw [backtrack, if_neg hcomp] at h
      rcases hsel : select_unassigned_variable cw d a with _ | var
      · rw [hsel] at h
        simp at h
      · rw [hsel] at h
        obtain ⟨value, hval, hf⟩ := List.exists_of_findSome?_eq_some h
        by_cases hc : consistent cw (insertA a var value) = true
        · rw [if_pos hc] at hf
          obtain ⟨hvv, hva, _⟩ := select_some_spec hsel
          refine ih (insertA a var value) r ?_ hc hf
          rw [keysA_insert_fresh hva]
          rw [List.nodup_append]
          refine ⟨hnd, List.nodup_singleton _, ?_⟩
          intro u hu hu2
          simp only [List.mem_singleton] at hu2
          rw [hu2] at hu
          exact hva hu
        · rw [if_neg hc] at hf
          simp at hf

theorem backtrack_complete {cw : Crossword} {d : Domains} {s : Assignment}
    (hsnd : (keysA s).Nodup) (hscomp : assignment_complete cw s = true)
    (hscons : consistent cw s = true) (hsin : SolIn s d) :
    ∀ (fuel : Nat) (a : Assignment),
      (cw.vars.filter (fun u => decide (u ∉ keysA a))).length < fuel →
      (keysA a).Nodup → (∀ v ∈ keysA a, v ∈ cw.vars) → SubA a s →
      backtrack cw d fuel a ≠ none := by
  intro fuel
  induction fuel with
  | zero =>
    intro a hlt
    omega
  | succ n ih =>
    intro a hlt hnd hkeys hsub
    by_cases hcomp : assignment_complete cw a = true
    · rw [backtrack, if_pos hcomp]
      simp
    · have hex : ∃ u ∈ cw.vars, u ∉ keysA a := by
        by_contra hno
        push_neg at hno
        exact hcomp (assignment_complete_iff.mpr ⟨hkeys, hno⟩)
      obtain ⟨u0, hu0v, hu0a⟩ := hex
      obtain ⟨var, hsel⟩ := select_isSome (d := d) hu0v hu0a
      obtain ⟨hvv, hva, _⟩ := select_some_spec hsel
      have hvkeys : var ∈ keysA s := (assignment_complete_iff.mp hscomp).2 var hvv
      obtain ⟨w, hw⟩ := lookupA_isSome_of_mem hvkeys
      have hwd : w ∈ d var := hsin var w hw
      have hword : w ∈ order_domain_values cw d var a := by
        rw [order_domain_values]
        exact mem_sortByLe.mpr hwd
      rw [backtrack, if_neg hcomp, hsel]
      intro hnone
      have hall := List.findSome?_eq_none_iff.mp hnone w hword
      have ha2sub : SubA (insertA a var w) s := SubA_insert hsub hva hw
      have ha2nd : (keysA (insertA a var w)).Nodup := by
        rw [keysA_insert_fresh hva, List.nodup_append]
        refine ⟨hnd, List.nodup_singleton _, ?_⟩
        intro u hu hu2
        simp only [List.mem_singleton] at hu2
        rw [hu2] at hu
        exact hva hu
      have hc : consistent cw (insertA a var w) = true :=
        consistent_of_sub ha2sub ha2nd hsnd hscons
      rw [if_pos hc] at hall
      refine ih (insertA a var w) ?_ ha2nd ?_ ha2sub hall
      · have := unassigned_count_lt (w := w) hvv hva
        omega
      · intro v hv
        rw [keysA_insert_fresh hva, List.mem_append] at hv
        rcases hv with hv | hv
        · exact hkeys v hv
        · simp only [List.mem_singleton] at hv
          rw [hv]
          exact hvv

/-! ### Node consistency and solution threading -/

theorem mem_enforce_node_consistency {d : Domains} {v : Variable} {w : Word} :
    w ∈ enforce_node_consistency d v ↔ w ∈ d v ∧ w.length = v.length := by
  simp [enforce_node_consistency, List.mem_filter]

theorem sol_agree {cw : Crossword} {s : Assignment}
    (hnd : (keysA s).Nodup) (hcomp : assignment_complete cw s = true)
    (hcons : consistent cw s = true) :
    ∀ x y i j, x ∈ cw.vars → y ∈ neighbors cw x → cw.overlaps x y = some (i, j) →
      ∃ wx wy, lookupA s x = some wx ∧ lookupA s y = some wy ∧ wx.get? i = wy.get? j := by
  intro x y i j hx hy hov
  have hxk : x ∈ keysA s := (assignment_complete_iff.mp hcomp).2 x hx
  have hyk : y ∈ keysA s := (assignment_complete_iff.mp hcomp).2 y (mem_neighbors_iff.mp hy).1
  obtain ⟨wx, hwx⟩ := lookupA_isSome_of_mem hxk
  obtain ⟨wy, hwy⟩ := lookupA_isSome_of_mem hyk
  refine ⟨wx, wy, hwx, hwy, ?_⟩
  have hmem : (x, wx) ∈ s := lookupA_mem hwx
  exact ((consistent_iff.mp hcons).2 (x, wx) hmem).2 y hy wy hwy i j hov

theorem solIn_enforce {cw : Crossword} {s : Assignment}
    (hcons : consistent cw s = true)
    (hwords : ∀ v w, lookupA s v = some w → w ∈ cw.words) :
    SolIn s (enforce_node_consistency (initDomains cw)) := by
  intro v w hv
  rw [mem_enforce_node_consistency]
  exact ⟨hwords v w hv, ((consistent_iff.mp hcons).2 (v, w) (lookupA_mem hv)).1⟩

theorem ac3_none_preserves_sol {cw : Crossword} {s : Assignment} (hsym : OverlapsSymm cw)
    (hnd : (keysA s).Nodup) (hcomp : assignment_complete cw s = true)
    (hcons : consistent cw s = true) {d : Domains} (hin : SolIn s d) :
    SolIn s (ac3 cw none d).2 := by
  rw [ac3]
  rcases h : ac3Fuel cw (fuelBound cw (ac3Queue cw none) d) (ac3Queue cw none) d
    with _ | ⟨b, d2⟩
  · exact hin
  · exact ac3Fuel_preserves_sol hsym (sol_agree hnd hcomp hcons) _ _ _ b d2
      (QInv_defaultArcs cw) hin h

/-! ### Wrapper equations for `ac3` and example facts -/

theorem ac3_eq_of_fuel {cw : Crossword} {arcs : Option (List Arc)} {d : Domains}
    {b : Bool} {d2 : Domains}
    (h : ac3Fuel cw (fuelBound cw (ac3Queue cw arcs) d) (ac3Queue cw arcs) d = some (b, d2)) :
    ac3 cw arcs d = (b, d2) := by
  rw [ac3, h]

theorem ac3_eq_of_none {cw : Crossword} {arcs : Option (List Arc)} {d : Domains}
    (h : ac3Fuel cw (fuelBound cw (ac3Queue cw arcs) d) (ac3Queue cw arcs) d = none) :
    ac3 cw arcs d = (false, d) := by
  rw [ac3, h]

theorem overlapsSymm_cwCross : OverlapsSymm cwCross := by
  intro x hx y hy i j h
  fin_cases hx <;> fin_cases hy
  · exact Option.noConfusion h
  · injection h with h2
    injection h2 with h3 h4
    subst h3
    subst h4
    decide
  · injection h with h2
    injection h2 with h3 h4
    subst h3
    subst h4
    decide
  · exact Option.noConfusion h

theorem overlapsSymm_cwSingle : OverlapsSymm cwSingle := by
  intro x hx y hy i j h
  have h2 : (none : Option (Nat × Nat)) = some (i, j) := h
  exact absurd h2 (by simp)

theorem cwSingle_solution_words :
    ∀ v w, lookupA [(varX, ['a'])] v = some w → w ∈ cwSingle.words := by
  intro v w hv
  have hv2 : (if varX = v then some (['a'] : Word) else none) = some w := hv
  by_cases h : varX = v
  · rw [if_pos h] at hv2
    injection hv2 with hv2
    rw [← hv2]
    exact List.mem_cons_self _ _
  · rw [if_neg h] at hv2
    exact absurd hv2 (by simp)

/-! ### The claims -/

/-- C1, counterexample: on the puzzle `cwEmpty`, AC-3 empties `varX`'s
domain and reports failure (`ac3` returns `false`), yet `solve` still
invokes the backtracking search — the source discards `ac3`'s Boolean
result and calls `backtrack(dict())` unconditionally — so the instrumented
`solveTrace` records `true` where the spec-modelled short-circuiting
`solveSpecShortCircuit` records `false`.  This refutes the claim that
`solve` returns failure *without invoking* backtracking search. -/
theorem solve_short_circuit_cex :
    (ac3 cwEmpty none (enforce_node_consistency (initDomains cwEmpty))).1 = false ∧
    (solveTrace cwEmpty).2 = true ∧ (solveSpecShortCircuit cwEmpty).2 = false :=
  ⟨by decide, rfl, by decide⟩

/-- C1, amended: if AC-3 reports an emptied domain during `solve()`, then
`solve()` does return the failure signal `none` — but by invoking
`backtrack`, which fails immediately because the MRV heuristic selects a
variable with an empty domain first — not by short-circuiting before the
search. -/
theorem solve_failure_after_ac3_empty (cw : Crossword)
    (h : (ac3 cw none (enforce_node_consistency (initDomains cw))).1 = false) :
    solve cw = none ∧ (solveTrace cw).2 = true := by
  refine ⟨?_, rfl⟩
  have hq : ∀ p ∈ ac3Queue cw none, p.1 ∈ cw.vars :=
    fun p hp => (QInv_defaultArcs cw p hp).1
  rcases hfu : ac3Fuel cw
      (fuelBound cw (ac3Queue cw none) (enforce_node_consistency (initDomains cw)))
      (ac3Queue cw none) (enforce_node_consistency (initDomains cw)) with _ | ⟨b, d2⟩
  · have hsome := ac3Fuel_isSome
      (fuelBound cw (ac3Queue cw none) (enforce_node_consistency (initDomains cw)))
      (ac3Queue cw none) (enforce_node_consistency (initDomains cw)) hq le_rfl
    rw [hfu] at hsome
    simp at hsome
  · have hac3 : ac3 cw none (enforce_node_consistency (initDomains cw)) = (b, d2) :=
      ac3_eq_of_fuel hfu
    rw [hac3] at h
    have hb : b = false := h
    subst hb
    obtain ⟨v, hvv, hvemp⟩ := ac3Fuel_false_empty _ _ _ d2 hq hfu
    rw [solve, hac3]
    show backtrack cw d2 (cw.vars.length + 1) [] = none
    have hvun : v ∉ keysA ([] : Assignment) := by simp [keysA]
    have hcompne : ¬ assignment_complete cw [] = true := by
      intro hc
      have hm := (assignment_complete_iff.mp hc).2 v hvv
      simp [keysA] at hm
    obtain ⟨var, hsel⟩ := select_isSome (d := d2) hvv hvun
    obtain ⟨_, _, hmin⟩ := select_some_spec hsel
    have hmv := hmin v hvv hvun
    have hdvar : d2 var = [] := by
      simp only [mrvLe, Bool.or_eq_true, Bool.and_eq_true, decide_eq_true_eq] at hmv
      rw [← List.length_eq_zero]
      rw [hvemp] at hmv
      simp only [List.length_nil] at hmv
      omega
    rw [backtrack, if_neg hcompne, hsel]
    show (order_domain_values cw d2 var []).findSome? (fun value =>
      if consistent cw (insertA [] var value) = true
      then backtrack cw d2 cw.vars.length (insertA [] var value) else none) = none
    rw [order_domain_values, hdvar]
    rfl

/-- C1, witness for the amended claim, at the concrete puzzle `cwEmpty`. -/
theorem solve_failure_after_ac3_empty_witness :
    solve cwEmpty = none ∧ (solveTrace cwEmpty).2 = true :=
  solve_failure_after_ac3_empty cwEmpty (by decide)

/-- C2: search soundness: whenever `solve()` returns a non-failure result,
that result is a complete assignment — its keys are exactly the puzzle's
variables, each bound once — satisfying `consistent` (pairwise-distinct
words, correct lengths, and agreement at every overlap of assigned
neighbors). -/
theorem solve_sound (cw : Crossword) (r : Assignment) (h : solve cw = some r) :
    assignment_complete cw r = true ∧ consistent cw r = true ∧ (keysA r).Nodup := by
  rw [solve] at h
  exact backtrack_sound _ [] r (by simp [keysA]) (consistent_nil cw) h

/-- C2, witness: on the one-slot puzzle `cwSingle`, `solve` returns the
assignment binding `varX` to `"a"`, which is complete and consistent. -/
theorem solve_sound_witness :
    assignment_complete cwSingle [(varX, ['a'])] = true ∧
    consistent cwSingle [(varX, ['a'])] = true ∧ (keysA [(varX, ['a'])]).Nodup :=
  solve_sound cwSingle [(varX, ['a'])] (by decide)

/-- C3: search completeness: if the puzzle (with its spec-guaranteed
symmetric overlap relation) admits some complete consistent assignment
drawing its words from the word list, then `solve()` returns some complete
consistent assignment rather than the failure signal. -/
theorem solve_complete (cw : Crossword) (hsym : OverlapsSymm cw)
    (hex : ∃ s : Assignment, (keysA s).Nodup ∧ assignment_complete cw s = true ∧
      consistent cw s = true ∧ ∀ v w, lookupA s v = some w → w ∈ cw.words) :
    ∃ r, solve cw = some r ∧ assignment_complete cw r = true ∧ consistent cw r = true := by
  obtain ⟨s, hnd, hcomp, hcons, hwords⟩ := hex
  have hin1 : SolIn s (enforce_node_consistency (initDomains cw)) :=
    solIn_enforce hcons hwords
  have hin2 : SolIn s (ac3 cw none (enforce_node_consistency (initDomains cw))).2 :=
    ac3_none_preserves_sol hsym hnd hcomp hcons hin1
  have hne : backtrack cw (ac3 cw none (enforce_node_consistency (initDomains cw))).2
      (cw.vars.length + 1) [] ≠ none := by
    refine backtrack_complete hnd hcomp hcons hin2 _ [] ?_ (by simp [keysA]) ?_ ?_
    · have hle := List.length_filter_le (fun u => decide (u ∉ keysA ([] : Assignment))) cw.vars
      omega
    · intro v hv
      simp [keysA] at hv
    · intro v w hv
      exact absurd hv (by simp [lookupA])
  rcases hr : solve cw with _ | r
  · exfalso
    rw [solve] at hr
    exact hne hr
  · refine ⟨r, rfl, ?_⟩
    rw [solve] at hr
    have hs := backtrack_sound _ [] r (by simp [keysA]) (consistent_nil cw) hr
    exact ⟨hs.1, hs.2.1⟩

/-- C3, witness: the one-slot puzzle `cwSingle` has the solution
`[(varX, "a")]`, and `solve` indeed returns a complete consistent
assignment. -/
theorem solve_complete_witness :
    ∃ r, solve cwSingle = some r ∧ assignment_complete cwSingle r = true ∧
      consistent cwSingle r = true :=
  solve_complete cwSingle overlapsSymm_cwSingle
    ⟨[(varX, ['a'])], by decide, by decide, by decide, cwSingle_solution_words⟩

/-- C4: arc-consistency postcondition: if `ac3` with the default arc set
returns `true`, then in the resulting domain store every word of `x`'s
domain has, for every neighbor `y` with overlap `(i, j)`, a supporting word
in `y`'s domain agreeing at the overlap indices (the overlap relation being
symmetric, as the spec requires). -/
theorem ac3_arc_consistent (cw : Crossword) (d : Domains) (hsym : OverlapsSymm cw)
    (h : (ac3 cw none d).1 = true) :
    ∀ x ∈ cw.vars, ∀ y ∈ neighbors cw x, ∀ i j, cw.overlaps x y = some (i, j) →
      ∀ w ∈ (ac3 cw none d).2 x, ∃ w2 ∈ (ac3 cw none d).2 y, w.get? i = w2.get? j := by
  intro x hx y hy i j hov w hw
  rcases hfu : ac3Fuel cw (fuelBound cw (ac3Queue cw none) d) (ac3Queue cw none) d
    with _ | ⟨b, d2⟩
  · rw [ac3_eq_of_none hfu] at h
    exact absurd h (by simp)
  · have hac3 := ac3_eq_of_fuel hfu
    rw [hac3] at h hw ⊢
    have hb : b = true := h
    subst hb
    have hinv : ∀ u ∈ cw.vars, ∀ v2 ∈ neighbors cw u, (u, v2) ∉ ac3Queue cw none →
        ArcCons cw d u v2 := by
      intro u hu v2 hv2 hmem
      exact absurd (mem_defaultArcs hu hv2) hmem
    exact ac3Fuel_arcCons hsym _ _ _ d2 (QInv_defaultArcs cw) hfu hinv x hx y hy i j hov w hw

/-- C4, witness: on the crossing puzzle `cwCross`, `ac3` succeeds and the
word `"a"` in `varX`'s domain has a support in `varZ`'s domain. -/
theorem ac3_arc_consistent_witness :
    ∃ w2 ∈ (ac3 cwCross none (initDomains cwCross)).2 varZ,
      (['a'] : Word).get? 0 = w2.get? 0 :=
  ac3_arc_consistent cwCross (initDomains cwCross) overlapsSymm_cwCross (by decide)
    varX (by decide) varZ (by decide) 0 0 (by decide) ['a'] (by decide)

/-- C5: the `revise` contract: the returned flag is `true` exactly when some
word was removed from `x`'s domain; when `x` and `y` overlap at `(i, j)`,
the revised domain of `x` keeps exactly the words with a support in `y`'s
domain; and when there is no overlap, `revise` is a no-op returning
`false`. -/
theorem revise_contract (cw : Crossword) (x y : Variable) (d : Domains) :
    ((revise cw x y d).1 = true ↔ ∃ w ∈ d x, w ∉ (revise cw x y d).2 x) ∧
    (∀ i j, cw.overlaps x y = some (i, j) → ∀ w,
      (w ∈ (revise cw x y d).2 x ↔ w ∈ d x ∧ ∃ w2 ∈ d y, w.get? i = w2.get? j)) ∧
    (cw.overlaps x y = none → revise cw x y d = (false, d)) := by
  refine ⟨?_, ?_, fun hov => revise_none hov⟩
  · rcases hov : cw.overlaps x y with _ | ⟨i, j⟩
    · rw [revise_none hov]
      constructor
      · intro hh
        exact absurd hh (by simp)
      · rintro ⟨w, hw, hn⟩
        exact absurd hw hn
    · rw [revise_true_iff hov]
      constructor
      · rintro ⟨w, hw, hs⟩
        refine ⟨w, hw, ?_⟩
        intro hm
        have h2 := ((revise_mem_x hov w).mp hm).2
        rw [hs] at h2
        exact absurd h2 (by simp)
      · rintro ⟨w, hw, hn⟩
        refine ⟨w, hw, ?_⟩
        cases hcase : hasSupport d y i j w
        · rfl
        · exact absurd ((revise_mem_x hov w).mpr ⟨hw, hcase⟩) hn
  · intro i j hov w
    rw [revise_mem_x hov, hasSupport_iff]

/-- C5, witness: on `cwEmpty`, `revise varX varY` removed a word (the flag
characterisation holds), and the membership characterisation holds for the
word `"a"` at the overlap `(0, 0)`. -/
theorem revise_contract_witness :
    ((revise cwEmpty varX varY dEmpty).1 = true ↔
      ∃ w ∈ dEmpty varX, w ∉ (revise cwEmpty varX varY dEmpty).2 varX) ∧
    ((['a'] : Word) ∈ (revise cwEmpty varX varY dEmpty).2 varX ↔
      (['a'] : Word) ∈ dEmpty varX ∧
        ∃ w2 ∈ dEmpty varY, (['a'] : Word).get? 0 = w2.get? 0) :=
  ⟨(revise_contract cwEmpty varX varY dEmpty).1,
   (revise_contract cwEmpty varX varY dEmpty).2.1 0 0 (by decide) ['a']⟩

/-- C6: node-consistency postcondition: after `enforce_node_consistency`, a
word is in a variable's domain exactly when it was there before and has the
variable's length; equivalently, exactly the words of differing length were
removed. -/
theorem enforce_node_consistency_spec (d : Domains) (v : Variable) (w : Word) :
    (w ∈ enforce_node_consistency d v ↔ w ∈ d v ∧ w.length = v.length) ∧
    ((w ∈ d v ∧ w ∉ enforce_node_consistency d v) ↔ (w ∈ d v ∧ w.length ≠ v.length)) := by
  refine ⟨mem_enforce_node_consistency, ?_⟩
  constructor
  · rintro ⟨hw, hn⟩
    exact ⟨hw, fun he => hn (mem_enforce_node_consistency.mpr ⟨hw, he⟩)⟩
  · rintro ⟨hw, hne⟩
    exact ⟨hw, fun hm => hne (mem_enforce_node_consistency.mp hm).2⟩

/-- C7: AC-3 terminates: with the computable fuel `fuelBound` (queue length
plus `|variables| · totalSize`), the worklist loop of `ac3` never exhausts
its fuel — each iteration either shortens the queue with unchanged domains
or strictly shrinks a finite domain — for any arc list whose sources are
puzzle variables (in particular the default arc set). -/
theorem ac3_terminates (cw : Crossword) (arcs : Option (List Arc)) (d : Domains)
    (hq : ∀ p ∈ ac3Queue cw arcs, p.1 ∈ cw.vars) :
    (ac3Fuel cw (fuelBound cw (ac3Queue cw arcs) d) (ac3Queue cw arcs) d).isSome = true :=
  ac3Fuel_isSome _ _ _ hq le_rfl

/-- C7, witness: on `cwEmpty` with the default arc set, the loop terminates
within its fuel. -/
theorem ac3_terminates_witness :
    (ac3Fuel cwEmpty (fuelBound cwEmpty (ac3Queue cwEmpty none) dEmpty)
      (ac3Queue cwEmpty none) dEmpty).isSome = true :=
  ac3_terminates cwEmpty none dEmpty (by decide)

/-- C8: variable-selection heuristic: on any non-complete assignment over
the puzzle's variables, `select_unassigned_variable` returns an unassigned
variable of minimal domain size, maximising the neighbor count among the
minimal ones (MRV with degree tie-breaking). -/
theorem select_unassigned_variable_mrv (cw : Crossword) (d : Domains) (a : Assignment)
    (hcomp : assignment_complete cw a = false)
    (hkeys : ∀ v ∈ keysA a, v ∈ cw.vars) :
    ∃ v, select_unassigned_variable cw d a = some v ∧ v ∈ cw.vars ∧ v ∉ keysA a ∧
      (∀ u ∈ cw.vars, u ∉ keysA a → (d v).length ≤ (d u).length) ∧
      (∀ u ∈ cw.vars, u ∉ keysA a → (d u).length = (d v).length →
        (neighbors cw u).length ≤ (neighbors cw v).length) := by
  have hex : ∃ u ∈ cw.vars, u ∉ keysA a := by
    by_contra hno
    push_neg at hno
    have hc : assignment_complete cw a = true := assignment_complete_iff.mpr ⟨hkeys, hno⟩
    rw [hcomp] at hc
    exact absurd hc (by simp)
  obtain ⟨u0, hu0, hu0a⟩ := hex
  obtain ⟨v, hsel⟩ := select_isSome (d := d) hu0 hu0a
  obtain ⟨hv, hva, hmin⟩ := select_some_spec hsel
  refine ⟨v, hsel, hv, hva, ?_, ?_⟩
  · intro u hu hua
    have hm := hmin u hu hua
    simp only [mrvLe, Bool.or_eq_true, Bool.and_eq_true, decide_eq_true_eq] at hm
    omega
  · intro u hu hua heq
    have hm := hmin u hu hua
    simp only [mrvLe, Bool.or_eq_true, Bool.and_eq_true, decide_eq_true_eq] at hm
    omega

/-- C8, witness: on `cwEmpty` with the node-consistent domains and the
empty assignment, the selection returns a minimal-domain unassigned
variable of maximal degree. -/
theorem select_unassigned_variable_mrv_witness :
    ∃ v, select_unassigned_variable cwEmpty dEmpty [] = some v ∧ v ∈ cwEmpty.vars ∧
      v ∉ keysA ([] : Assignment) ∧
      (∀ u ∈ cwEmpty.vars, u ∉ keysA ([] : Assignment) →
        (dEmpty v).length ≤ (dEmpty u).length) ∧
      (∀ u ∈ cwEmpty.vars, u ∉ keysA ([] : Assignment) →
        (dEmpty u).length = (dEmpty v).length →
        (neighbors cwEmpty u).length ≤ (neighbors cwEmpty v).length) :=
  select_unassigned_variable_mrv cwEmpty dEmpty [] (by decide) (by decide)

/-- C9: domain monotonicity: `enforce_node_consistency`, `revise` and `ac3`
only remove words — for every variable, the domain after each operation is
a subset of the domain before, and no word is ever added. -/
theorem domains_monotone (cw : Crossword) (d : Domains) (v : Variable) :
    (∀ w ∈ enforce_node_consistency d v, w ∈ d v) ∧
    (∀ x y : Variable, ∀ w ∈ (revise cw x y d).2 v, w ∈ d v) ∧
    (∀ arcs : Option (List Arc), ∀ w ∈ (ac3 cw arcs d).2 v, w ∈ d v) := by
  refine ⟨?_, ?_, ?_⟩
  · intro w hw
    exact (mem_enforce_node_consistency.mp hw).1
  · intro x y w hw
    exact revise_subset hw
  · intro arcs w hw
    exact ac3_subset arcs d v w hw

/-- C9, witness: the word `"a"`, still present in `varX`'s domain after a
full run of `ac3` on `cwCross`, was present in the initial domain. -/
theorem domains_monotone_witness : (['a'] : Word) ∈ initDomains cwCross varX :=
  (domains_monotone cwCross (initDomains cwCross) varX).2.2 none ['a'] (by decide)

/-- C10: frame property of `revise`: the call changes at most `x`'s domain —
every other variable's domain is returned unchanged (and the puzzle
description is immutable in this pure embedding: `revise` returns only a new
domain store). -/
theorem revise_frame (cw : Crossword) (x y v : Variable) (d : Domains) (h : v ≠ x) :
    (revise cw x y d).2 v = d v :=
  revise_snd_ne h

/-- C10, witness: revising `varX` against `varY` on `cwEmpty` leaves
`varY`'s domain unchanged. -/
theorem revise_frame_witness :
    (revise cwEmpty varX varY dEmpty).2 varY = dEmpty varY :=
  revise_frame cwEmpty varX varY varY dEmpty (by decide)


end CrosswordGen
